import Mathlib

/-!
Shallow embedding of `workflow/scripts/subsample_gtdb.py` (TADA repository).

The script selects a taxonomically balanced subset of genome records from a
GTDB metadata table according to a user-supplied sampling scheme.  The
embedding below translates the script's data model and operations into Lean:

* a pandas row becomes a `Record`; a data frame becomes a `List Record`;
* the seven taxonomic rank columns become the `Rank` type and `col`;
* `check_taxa_name` and `get_taxa_level_index` are translated directly;
* the `"all"` wildcard expansion of the sampling scheme (`expandScheme`),
  the rule-validation/bucketing loop (`buildSamplingOrder`) and the
  reordering by descending rank index (`reorderBuckets`, `flattenedRules`)
  follow lines 79-108 of the script;
* the main sampling loop (lines 111-160) becomes `processRule` / `runRules`,
  with the random draws of `DataFrame.sample` abstracted by two oracle
  functions (uniform and weighted); probabilities use `ℚ` where the script
  uses Python floats;
* Python's `ZeroDivisionError` at `prob_units = 1 / n_units` when the
  candidate pool has no child units is modelled by `Option`: `processRule`
  returns `none` exactly when the script would crash.
-/

namespace TADA

/-- Taxonomic ranks, i.e. the seven rank columns split out of `gtdb_taxonomy`.
The "class" rank is named `cls` because `class` is a Lean keyword. -/
inductive Rank where
  | domain | phylum | cls | order | family | genus | species
deriving DecidableEq, Repr

/-- One row of the (already parsed) GTDB metadata table.  The quality columns
are kept as rationals; `sampling_prob` models the transient weight column:
`none` means the column is absent / NaN for this row (a freshly loaded table
has `none` everywhere since the input file has no such column). -/
structure Record where
  accession : String
  domain : String
  phylum : String
  cls : String
  order : String
  family : String
  genus : String
  species : String
  checkm_completeness : ℚ
  checkm_contamination : ℚ
  gtdb_representative : Bool
  sampling_prob : Option ℚ := none
deriving DecidableEq, Repr

/-- Column access `df[level]` for a single row. -/
def col : Rank → Record → String
  | .domain, r => r.domain
  | .phylum, r => r.phylum
  | .cls, r => r.cls
  | .order, r => r.order
  | .family, r => r.family
  | .genus, r => r.genus
  | .species, r => r.species

/-- Column values `df[level].to_list()`. -/
def colVals (level : Rank) (df : List Record) : List String :=
  df.map (col level)

/-- Line 76: `taxa_levels = ["domain", ..., "species"]`, coarsest first. -/
def taxa_levels : List Rank :=
  [.domain, .phylum, .cls, .order, .family, .genus, .species]

/-- Position of a rank in `taxa_levels` (`taxa_levels.index(...)`). -/
def rankIndex (r : Rank) : Nat := taxa_levels.indexOf r

/-- Lines 20-27: scan every rank column for the taxon name. -/
def check_taxa_name (taxa : String) (levels : List Rank) (df : List Record) : Bool :=
  levels.any (fun level => (colVals level df).contains taxa)

/-- Loop of lines 30-36 with the running `enumerate` index made explicit. -/
def get_taxa_level_index_from (taxa : String) (df : List Record) :
    List Rank → Nat → Option Nat
  | [], _ => none
  | level :: rest, i =>
    if (colVals level df).contains taxa then some i
    else get_taxa_level_index_from taxa df rest (i + 1)

/-- Lines 30-36: index of the first rank column containing `taxa`, scanning
`levels` in list order (for `taxa_levels`: domain first, species last). -/
def get_taxa_level_index (taxa : String) (levels : List Rank) (df : List Record) :
    Option Nat :=
  get_taxa_level_index_from taxa df levels 0

theorem get_from_isSome (taxa : String) (df : List Record) :
    ∀ (levels : List Rank) (i : Nat),
      (get_taxa_level_index_from taxa df levels i).isSome =
        levels.any (fun level => (colVals level df).contains taxa) := by
  intro levels
  induction levels with
  | nil => intro i; simp [get_taxa_level_index_from]
  | cons level rest ih =>
    intro i
    by_cases h : taxa ∈ colVals level df
    · simp [get_taxa_level_index_from, h]
    · simp [get_taxa_level_index_from, h, ih (i + 1)]

/-- `check_taxa_name` answers exactly whether `get_taxa_level_index` finds an
index. -/
theorem check_eq_isSome (taxa : String) (levels : List Rank) (df : List Record) :
    check_taxa_name taxa levels df = (get_taxa_level_index taxa levels df).isSome := by
  rw [check_taxa_name, get_taxa_level_index, get_from_isSome]

theorem get_from_spec (taxa : String) (df : List Record) :
    ∀ (levels : List Rank) (i j : Nat),
      get_taxa_level_index_from taxa df levels i = some j →
      ∃ m, j = i + m ∧ m < levels.length ∧
        taxa ∈ colVals (levels.getD m .domain) df ∧
        ∀ p, p < m → taxa ∉ colVals (levels.getD p .domain) df := by
  intro levels
  induction levels with
  | nil => intro i j h; simp [get_taxa_level_index_from] at h
  | cons level rest ih =>
    intro i j h
    by_cases hc : taxa ∈ colVals level df
    · refine ⟨0, ?_, by simp, by simpa using hc, by omega⟩
      simp [get_taxa_level_index_from, hc] at h
      omega
    · rw [get_taxa_level_index_from, if_neg (by simpa using hc)] at h
      obtain ⟨m, hm, hlt, hat, hbelow⟩ := ih (i + 1) j h
      refine ⟨m + 1, by omega, by simpa using hlt, by simpa using hat, ?_⟩
      intro p hp
      match p with
      | 0 => simpa using hc
      | p + 1 => simpa using hbelow p (by omega)

/-- Least-index characterisation of the resolver: the returned index is the
first position in scan order whose column contains the name. -/
theorem get_spec (taxa : String) (levels : List Rank) (df : List Record) (j : Nat)
    (h : get_taxa_level_index taxa levels df = some j) :
    j < levels.length ∧
      taxa ∈ colVals (levels.getD j .domain) df ∧
      ∀ p, p < j → taxa ∉ colVals (levels.getD p .domain) df := by
  obtain ⟨m, hm, hlt, hat, hbelow⟩ := get_from_spec taxa df levels 0 j h
  have hjm : j = m := by omega
  subst hjm
  exact ⟨hlt, hat, hbelow⟩

/-- Parameters of one sampling-scheme entry: `{sampling_level: ..., taxa: ...}`. -/
structure Params where
  sampling_level : Rank
  taxa : Nat
deriving DecidableEq, Repr

/-- A parsed sampling scheme: a YAML mapping in document order, keys unique. -/
abbrev Scheme := List (String × Params)

/-- Assignment `d[k] = v` on a Python dict in insertion order: overwrite in
place when the key exists, append at the end otherwise. -/
def dictInsert (s : Scheme) (k : String) (v : Params) : Scheme :=
  if s.any (fun kv => kv.1 == k) then
    s.map (fun kv => if kv.1 = k then (k, v) else kv)
  else s ++ [(k, v)]

/-- Dict lookup `d[k]` / `k in d.keys()` on a scheme: the first (and, for a
dict, only) binding of the key. -/
def schemeGet : Scheme → String → Option Params
  | [], _ => none
  | (k1, v1) :: tl, k => if k1 = k then some v1 else schemeGet tl k

/-- Lines 79-83: replace an `"all"` wildcard entry by `Bacteria` and
`Archaea` entries carrying the wildcard's parameters. -/
def expandScheme (s : Scheme) : Scheme :=
  match schemeGet s "all" with
  | none => s
  | some sampling_parameters =>
    let s := s.filter (fun kv => !(kv.1 == "all"))
    let s := dictInsert s "Bacteria" sampling_parameters
    dictInsert s "Archaea" sampling_parameters

/-- The two fatal configuration errors of lines 100 and 102 (`sys.exit`). -/
inductive BuildError where
  | unknownTaxon (taxa : String)
  | invalidRankOrder
deriving DecidableEq, Repr

/-- The triple `[taxa, sampling_level, n_taxa]` stored in `sampling_order`. -/
abbrev RuleSpec := String × Rank × Nat

/-- Appending a rule to the dict-of-lists `sampling_order` (lines 95-98):
extend the existing bucket in place, or create a new key at the end. -/
def bucketInsert (buckets : List (Nat × List RuleSpec)) (k : Nat) (r : RuleSpec) :
    List (Nat × List RuleSpec) :=
  if buckets.any (fun kv => kv.1 == k) then
    buckets.map (fun kv => if kv.1 = k then (kv.1, kv.2 ++ [r]) else kv)
  else buckets ++ [(k, [r])]

/-- Validation loop of lines 85-102: each scheme entry must name a known
taxon and must not sample at a rank coarser than the taxon's own rank
(`sampling_level_index >= taxa_level_index`); valid rules are bucketed under
the taxon's rank index.  The `none` branch is unreachable because
`check_taxa_name` guarantees an index (`check_eq_isSome`). -/
def buildSamplingOrder (df : List Record) :
    Scheme → List (Nat × List RuleSpec) → Except BuildError (List (Nat × List RuleSpec))
  | [], acc => .ok acc
  | (taxa, p) :: rest, acc =>
    if check_taxa_name taxa taxa_levels df then
      match get_taxa_level_index taxa taxa_levels df with
      | some taxa_level_index =>
        if rankIndex p.sampling_level ≥ taxa_level_index then
          buildSamplingOrder df rest
            (bucketInsert acc taxa_level_index (taxa, p.sampling_level, p.taxa))
        else .error .invalidRankOrder
      | none => .error (.unknownTaxon taxa)
    else .error (.unknownTaxon taxa)

/-- Descending insertion of a key into a sorted key list. -/
def insertDesc (k : Nat) : List Nat → List Nat
  | [] => [k]
  | x :: xs => if x ≤ k then k :: x :: xs else x :: insertDesc k xs

/-- `sorted(keys, reverse=True)` of line 107. -/
def sortDesc (l : List Nat) : List Nat := l.foldr insertDesc []

/-- Lines 106-108: rebuild `sampling_order` with its keys in descending
order (species-level buckets first, domain-level buckets last). -/
def reorderBuckets (buckets : List (Nat × List RuleSpec)) : List (Nat × List RuleSpec) :=
  (sortDesc (buckets.map (fun kv => kv.1))).filterMap
    (fun k => (buckets.find? (fun kv => kv.1 == k)).map (fun kv => (k, kv.2)))

/-- The sequence of rule executions of the nested loops at lines 111-113:
bucket by bucket in reordered (descending-rank) order, each rule paired with
its bucket's rank index. -/
def flattenedRules (buckets : List (Nat × List RuleSpec)) : List (Nat × RuleSpec) :=
  (reorderBuckets buckets).flatMap (fun kv => kv.2.map (fun r => (kv.1, r)))

/-- Lines 61-68: quality filtering and the optional restriction to GTDB
species representatives. -/
def recordFilter (completeness contamination : ℚ) (gtdb_representative : Bool)
    (df : List Record) : List Record :=
  let df := df.filter (fun r =>
    decide (r.checkm_contamination ≤ contamination) &&
    decide (completeness ≤ r.checkm_completeness))
  if gtdb_representative then df.filter (fun r => r.gtdb_representative) else df

/-- One rule execution as the main loop sees it: the rank column the taxon
matched (`taxa_level = taxa_levels[taxa_level_index]`, line 112), the taxon
name, the target sampling level and the quota `n_taxa`. -/
structure RuleExec where
  taxa_level : Rank
  taxa : String
  sampling_level : Rank
  n_taxa : Nat
deriving DecidableEq, Repr

/-- Turn a bucketed rule back into an execution (lines 112-117). -/
def execOfSpec (k : Nat) (r : RuleSpec) : RuleExec :=
  ⟨taxa_levels.getD k .domain, r.1, r.2.1, r.2.2⟩

/-- Mutable state of the main loop: `used_data` (line 110) and
`sampled_dfs` (line 109), each a list of frames. -/
structure RunState where
  used_data : List (List Record)
  sampled_dfs : List (List Record)
deriving Repr

/-- State before the first rule runs. -/
def initState : RunState := ⟨[], []⟩

/-- Lines 123-125: `exclude_entries`, the accessions of every frame already
appended to `used_data`. -/
def usedAccessions (s : RunState) : List String :=
  s.used_data.flatMap (fun used_df => used_df.map (fun x => x.accession))

/-- Lines 119-126: records whose `taxa_level` column equals the rule's taxon,
minus records whose accession was already used.  This is the candidate pool:
the frame the rule samples from, before quota truncation. -/
def candidatePool (df : List Record) (s : RunState) (r : RuleExec) : List Record :=
  (df.filter (fun x => col r.taxa_level x == r.taxa)).filter
    (fun x => !((usedAccessions s).contains x.accession))

/-- Ascending insertion of a key into a sorted key list. -/
def insertSorted (k : String) : List String → List String
  | [] => [k]
  | x :: xs => if k ≤ x then k :: x :: xs else x :: insertSorted k xs

/-- Sorted group keys, as `DataFrame.groupby` produces them. -/
def sortKeys (l : List String) : List String := l.foldr insertSorted []

/-- `rows.groupby(key)`: one group per distinct key value, keys sorted
ascending, rows of a group in original order. -/
def groupby (key : Record → String) (rows : List Record) : List (String × List Record) :=
  (sortKeys ((rows.map key).dedup)).map
    (fun k => (k, rows.filter (fun r => key r == k)))

/-- Line 134: `n_units = len(set(sampling_df[base_level].to_list()))`. -/
def nUnits (base_level : Rank) (pool : List Record) : Nat :=
  ((pool.map (col base_level)).dedup).length

/-- Lines 135-143: give every record of a `base_level` group of size `k` the
weight `(1 / n_units) / k` and rebuild the frame as the concatenation of the
groups.  Only meaningful when `nUnits` is nonzero; the caller models the
`ZeroDivisionError` of line 135 separately. -/
def assignWeights (base_level : Rank) (pool : List Record) : List Record :=
  (groupby (col base_level) pool).flatMap
    (fun g => g.2.map
      (fun x =>
        { x with
          sampling_prob := some (1 / (nUnits base_level pool : ℚ) / (g.2.length : ℚ)) }))

/-- `"sampling_prob" in taxa_level_df.columns` (line 151).  On every frame
the script builds, either all rows carry a weight (weighted branch ran) or
none does (the loaded table has no such column), so column presence
coincides with some row having a weight. -/
def hasProbColumn (rows : List Record) : Bool :=
  rows.any (fun x => x.sampling_prob.isSome)

/-- Lines 147-158 for one group: keep the whole group when it has at most
`n_taxa` rows, otherwise draw `n_taxa` rows via `DataFrame.sample` —
weighted by the `sampling_prob` column when present, uniformly otherwise.
The random draws are abstracted by the two oracle functions. -/
def selectGroup (sampleUniform sampleWeighted : Nat → List Record → List Record)
    (n_taxa : Nat) (g : List Record) : List Record :=
  if g.length > n_taxa then
    if hasProbColumn g then sampleWeighted n_taxa g else sampleUniform n_taxa g
  else g

/-- Line 146: group the sampling frame by the rule's sampling level and
select from each group; one frame per group, appended to `sampled_dfs`. -/
def selections (sampleUniform sampleWeighted : Nat → List Record → List Record)
    (sampling_level : Rank) (n_taxa : Nat) (pool : List Record) : List (List Record) :=
  (groupby (col sampling_level) pool).map
    (fun g => selectGroup sampleUniform sampleWeighted n_taxa g.2)

/-- One iteration of the inner loop (lines 113-160): build the candidate
pool, assign weights when the sampling level is coarser than species, sample
per group, and append the (possibly weighted) pool to `used_data`.  Returns
`none` when the script crashes: `prob_units = 1 / n_units` raises
`ZeroDivisionError` when the pool has no `base_level` units (line 135). -/
def processRule (df : List Record)
    (sampleUniform sampleWeighted : Nat → List Record → List Record)
    (s : RunState) (r : RuleExec) : Option RunState :=
  let sampling_df := candidatePool df s r
  if r.sampling_level = Rank.species then
    some { used_data := s.used_data ++ [sampling_df],
           sampled_dfs := s.sampled_dfs ++
             selections sampleUniform sampleWeighted r.sampling_level r.n_taxa sampling_df }
  else
    let base_level := taxa_levels.getD (rankIndex r.sampling_level + 1) .species
    if nUnits base_level sampling_df = 0 then
      none
    else
      let weighted_df := assignWeights base_level sampling_df
      some { used_data := s.used_data ++ [weighted_df],
             sampled_dfs := s.sampled_dfs ++
               selections sampleUniform sampleWeighted r.sampling_level r.n_taxa weighted_df }

/-- The main loop over the flattened rule sequence. -/
def runRules (df : List Record)
    (sampleUniform sampleWeighted : Nat → List Record → List Record) :
    List RuleExec → RunState → Option RunState
  | [], s => some s
  | r :: rest, s =>
    match processRule df sampleUniform sampleWeighted s r with
    | some s' => runRules df sampleUniform sampleWeighted rest s'
    | none => none

/-- `drop_duplicates` (line 163): keep the first occurrence of each row
(full-row equality). -/
def dropDuplicates (l : List Record) : List Record :=
  l.foldl (fun acc x => if x ∈ acc then acc else acc ++ [x]) []

/-- Lines 162-164: concatenate all per-group selections and deduplicate;
this is the table written to the output file. -/
def finalOutput (s : RunState) : List Record :=
  dropDuplicates (s.sampled_dfs.flatMap id)

/-- The whole pipeline after loading and filtering: expansion, validation,
reordering, the sampling loop, and the final concatenation.  `Except` carries
the two `sys.exit` validation errors; the inner `Option` is `none` when the
sampling loop raises `ZeroDivisionError`. -/
def runScheme (df : List Record)
    (sampleUniform sampleWeighted : Nat → List Record → List Record)
    (scheme : Scheme) : Except BuildError (Option (List Record)) :=
  match buildSamplingOrder df (expandScheme scheme) [] with
  | .error e => .error e
  | .ok buckets =>
    match runRules df sampleUniform sampleWeighted
        ((flattenedRules buckets).map (fun kr => execOfSpec kr.1 kr.2)) initState with
    | none => .ok none
    | some s => .ok (some (finalOutput s))

/-! Concrete records used to exercise the definitions. -/

/-- A record of genus `g1`, species `s1`. -/
def exRec : Record :=
  { accession := "A1", domain := "Bacteria", phylum := "p1", cls := "c1",
    order := "o1", family := "f1", genus := "g1", species := "s1",
    checkm_completeness := 100, checkm_contamination := 0,
    gtdb_representative := true }

/-- A record whose genus column holds the name "X". -/
def exRecGX : Record :=
  { accession := "A2", domain := "Bacteria", phylum := "p1", cls := "c1",
    order := "o1", family := "f1", genus := "X", species := "s2",
    checkm_completeness := 100, checkm_contamination := 0,
    gtdb_representative := true }

/-- A record whose species column holds the name "X". -/
def exRecSX : Record :=
  { accession := "A3", domain := "Bacteria", phylum := "p1", cls := "c1",
    order := "o1", family := "f1", genus := "g3", species := "X",
    checkm_completeness := 100, checkm_contamination := 0,
    gtdb_representative := true }

/-! Basic facts about the two insertion sorts. -/

theorem insertSorted_perm (k : String) : ∀ l : List String, List.Perm (insertSorted k l) (k :: l) := by
  intro l
  induction l with
  | nil => rfl
  | cons x xs ih =>
    rw [insertSorted]
    by_cases h : k ≤ x
    · rw [if_pos h]
    · rw [if_neg h]
      exact (ih.cons x).trans (List.Perm.swap k x xs)

theorem sortKeys_perm (l : List String) : List.Perm (sortKeys l) l := by
  induction l with
  | nil => rfl
  | cons x xs ih => exact (insertSorted_perm x (sortKeys xs)).trans (ih.cons x)

theorem insertDesc_perm (k : Nat) : ∀ l : List Nat, List.Perm (insertDesc k l) (k :: l) := by
  intro l
  induction l with
  | nil => rfl
  | cons x xs ih =>
    rw [insertDesc]
    by_cases h : x ≤ k
    · rw [if_pos h]
    · rw [if_neg h]
      exact (ih.cons x).trans (List.Perm.swap k x xs)

theorem sortDesc_perm (l : List Nat) : List.Perm (sortDesc l) l := by
  induction l with
  | nil => rfl
  | cons x xs ih => exact (insertDesc_perm x (sortDesc xs)).trans (ih.cons x)

theorem insertDesc_pairwise (k : Nat) (l : List Nat)
    (h : List.Pairwise (fun a b => b ≤ a) l) :
    List.Pairwise (fun a b => b ≤ a) (insertDesc k l) := by
  induction l with
  | nil => simp [insertDesc]
  | cons x xs ih =>
    rw [insertDesc]
    by_cases hx : x ≤ k
    · rw [if_pos hx]
      refine h.cons ?_
      intro b hb
      rcases List.mem_cons.mp hb with rfl | hb2
      · exact hx
      · exact le_trans (List.rel_of_pairwise_cons h hb2) hx
    · rw [if_neg hx]
      rw [List.pairwise_cons] at h
      refine (ih h.2).cons ?_
      intro b hb
      rcases List.mem_cons.mp ((insertDesc_perm k xs).mem_iff.mp hb) with rfl | hb2
      · omega
      · exact h.1 b hb2

theorem sortDesc_pairwise (l : List Nat) :
    List.Pairwise (fun a b => b ≤ a) (sortDesc l) := by
  induction l with
  | nil => simp [sortDesc]
  | cons x xs ih => exact insertDesc_pairwise x (sortDesc xs) ih

/-- C10: `check_taxa_name` returns true exactly when `get_taxa_level_index`
returns an index, and that index is the least position in the scanned level
list whose column contains the name; hence in the validation loop the index
lookup, performed only under the `check_taxa_name` guard, never yields
`None`, so the rank comparison and bucketing never see a missing rank. -/
theorem c10_check_guards_index (df : List Record) (taxa : String) :
    check_taxa_name taxa taxa_levels df =
      (get_taxa_level_index taxa taxa_levels df).isSome ∧
    ∀ i, get_taxa_level_index taxa taxa_levels df = some i →
      i < taxa_levels.length ∧
      taxa ∈ colVals (taxa_levels.getD i .domain) df ∧
      ∀ j, j < i → taxa ∉ colVals (taxa_levels.getD j .domain) df :=
  ⟨check_eq_isSome taxa taxa_levels df,
   fun i h => get_spec taxa taxa_levels df i h⟩

/-- Witness for C10 at a concrete table and name. -/
theorem c10_witness :
    (check_taxa_name "g1" taxa_levels [exRec] =
      (get_taxa_level_index "g1" taxa_levels [exRec]).isSome) ∧
    (5 < taxa_levels.length ∧
      "g1" ∈ colVals (taxa_levels.getD 5 .domain) [exRec] ∧
      ∀ j, j < 5 → "g1" ∉ colVals (taxa_levels.getD j .domain) [exRec]) :=
  ⟨(c10_check_guards_index [exRec] "g1").1,
   (c10_check_guards_index [exRec] "g1").2 5 (by decide)⟩

/-- C6 counterexample: in a table where the name "X" occurs both in the
genus column and in the species column, the resolver returns the genus
index (5), which is the coarser rank, not the finer species rank (6): the
scan order is coarsest-to-finest, not finest-to-coarsest. -/
theorem c6_counterexample :
    "X" ∈ colVals .genus [exRecGX, exRecSX] ∧
    "X" ∈ colVals .species [exRecGX, exRecSX] ∧
    get_taxa_level_index "X" taxa_levels [exRecGX, exRecSX] =
      some (rankIndex .genus) ∧
    rankIndex .genus < rankIndex .species := by decide

/-- C6 amended: for every taxon name occurring as a value in at least one
rank column, resolution returns the first matching rank in
coarsest-to-finest scan order (domain scanned first, ..., species last); in
particular a name present at two different ranks resolves to the coarser
one (the least matching index). -/
theorem c6_amended_resolution (df : List Record) (taxa : String) (i : Nat)
    (hi : i < taxa_levels.length)
    (hmem : taxa ∈ colVals (taxa_levels.getD i .domain) df) :
    ∃ k, get_taxa_level_index taxa taxa_levels df = some k ∧ k ≤ i ∧
      taxa ∈ colVals (taxa_levels.getD k .domain) df ∧
      ∀ j, j < k → taxa ∉ colVals (taxa_levels.getD j .domain) df := by
  have hcheck : check_taxa_name taxa taxa_levels df = true := by
    rw [check_taxa_name, List.any_eq_true]
    refine ⟨taxa_levels.getD i .domain, ?_, by simpa using hmem⟩
    rw [List.getD_eq_getElem taxa_levels .domain hi]
    exact List.getElem_mem hi
  rw [check_eq_isSome] at hcheck
  obtain ⟨k, hk⟩ := Option.isSome_iff_exists.mp hcheck
  obtain ⟨hlt, hat, hbelow⟩ := get_spec taxa taxa_levels df k hk
  refine ⟨k, hk, ?_, hat, hbelow⟩
  by_contra hik
  exact hbelow i (by omega) hmem

/-- Witness for C6 amended: the name "X" sits in the genus column (index 5)
of the concrete table; resolution returns an index at most 5. -/
theorem c6_amended_witness :
    ∃ k, get_taxa_level_index "X" taxa_levels [exRecGX, exRecSX] = some k ∧
      k ≤ 5 ∧
      "X" ∈ colVals (taxa_levels.getD k .domain) [exRecGX, exRecSX] ∧
      ∀ j, j < k → "X" ∉ colVals (taxa_levels.getD j .domain) [exRecGX, exRecSX] :=
  c6_amended_resolution [exRecGX, exRecSX] "X" 5 (by decide) (by decide)

theorem buildSamplingOrder_append (df : List Record) (pre rest : Scheme)
    (acc acc' : List (Nat × List RuleSpec))
    (h : buildSamplingOrder df pre acc = .ok acc') :
    buildSamplingOrder df (pre ++ rest) acc = buildSamplingOrder df rest acc' := by
  induction pre generalizing acc with
  | nil =>
    rw [buildSamplingOrder] at h
    cases h
    rfl
  | cons hd tl ih =>
    obtain ⟨taxa, p⟩ := hd
    simp only [buildSamplingOrder, List.cons_append] at h ⊢
    by_cases hc : check_taxa_name taxa taxa_levels df
    · rw [if_pos hc] at h ⊢
      cases hti : get_taxa_level_index taxa taxa_levels df with
      | none => simp [hti] at h
      | some ti =>
        simp only [hti] at h ⊢
        by_cases hge : rankIndex p.sampling_level ≥ ti
        · rw [if_pos hge] at h ⊢
          exact ih _ h
        · rw [if_neg hge] at h
          exact absurd h (by simp)
    · rw [if_neg hc] at h
      exact absurd h (by simp)

/-- C1 counterexample: the scheme entry names the genus "g1" and asks to
sample at the strictly finer rank species; validation accepts the rule and
buckets it under the genus index 5 instead of failing. -/
theorem c1_counterexample :
    get_taxa_level_index "g1" taxa_levels [exRec] = some (rankIndex .genus) ∧
    rankIndex .genus < rankIndex .species ∧
    buildSamplingOrder [exRec] [("g1", ⟨Rank.species, 1⟩)] [] =
      .ok [(5, [("g1", Rank.species, 1)])] :=
  ⟨by decide, by decide, by rfl⟩

/-- C1 amended: validation fails (the run aborts via `sys.exit`) exactly in
the opposite direction: for every rule whose target rank is at a strictly
coarser rank than the rank at which the rule's taxon name occurs
(`sampling_level` index < taxon's rank index); a rule naming a genus with
target rank species is accepted. -/
theorem c1_amended_rank_order (df : List Record) (pre post : Scheme)
    (taxa : String) (p : Params) (acc acc' : List (Nat × List RuleSpec)) (ti : Nat)
    (hpre : buildSamplingOrder df pre acc = .ok acc')
    (hti : get_taxa_level_index taxa taxa_levels df = some ti)
    (hlt : rankIndex p.sampling_level < ti) :
    buildSamplingOrder df (pre ++ (taxa, p) :: post) acc = .error .invalidRankOrder := by
  rw [buildSamplingOrder_append df pre _ acc acc' hpre]
  have hcheck : check_taxa_name taxa taxa_levels df = true := by
    rw [check_eq_isSome, hti]
    rfl
  rw [buildSamplingOrder, if_pos hcheck]
  simp only [hti]
  exact if_neg (by omega)

/-- Witness for C1 amended: a rule naming the species "s1" with the coarser
target rank genus is rejected. -/
theorem c1_amended_witness :
    buildSamplingOrder [exRec] ([] ++ ("s1", ⟨Rank.genus, 1⟩) :: []) [] =
      .error .invalidRankOrder :=
  c1_amended_rank_order [exRec] [] [] "s1" ⟨Rank.genus, 1⟩ [] [] 6
    (by rfl) (by decide) (by decide)

theorem schemeGet_removeAll (s : Scheme) (k : String) (hk : k ≠ "all") :
    schemeGet (s.filter (fun kv => !(kv.1 == "all"))) k = schemeGet s k := by
  induction s with
  | nil => rfl
  | cons hd tl ih =>
    obtain ⟨k1, v1⟩ := hd
    by_cases h1 : k1 = "all"
    · subst h1
      simp [List.filter_cons, schemeGet, Ne.symm hk, ih]
    · by_cases h2 : k1 = k
      · subst h2
        simp [List.filter_cons, beq_false_of_ne h1, schemeGet]
      · simp [List.filter_cons, beq_false_of_ne h1, schemeGet, h2, ih]

theorem schemeGet_removeAll_self (s : Scheme) :
    schemeGet (s.filter (fun kv => !(kv.1 == "all"))) "all" = none := by
  induction s with
  | nil => rfl
  | cons hd tl ih =>
    obtain ⟨k1, v1⟩ := hd
    by_cases h1 : k1 = "all"
    · subst h1
      simp [List.filter_cons, ih]
    · simp [List.filter_cons, beq_false_of_ne h1, schemeGet, h1, ih]

theorem schemeGet_dictInsert_self (s : Scheme) (k : String) (v : Params) :
    schemeGet (dictInsert s k v) k = some v := by
  rw [dictInsert]
  by_cases hany : s.any (fun kv => kv.1 == k)
  · rw [if_pos hany]
    induction s with
    | nil => simp at hany
    | cons hd tl ih =>
      obtain ⟨k1, v1⟩ := hd
      rw [List.map_cons]
      by_cases h1 : k1 = k
      · simp only [if_pos (show (k1, v1).1 = k from h1)]
        simp [schemeGet]
      · simp only [if_neg (show ¬(k1, v1).1 = k from h1)]
        have htl : tl.any (fun kv => kv.1 == k) = true := by
          simp only [List.any_cons, beq_false_of_ne h1, Bool.false_or] at hany
          exact hany
        simp only [schemeGet]
        rw [if_neg h1]
        exact ih htl
  · rw [if_neg hany]
    induction s with
    | nil => simp [schemeGet]
    | cons hd tl ih =>
      obtain ⟨k1, v1⟩ := hd
      simp only [List.any_cons, Bool.or_eq_true, not_or] at hany
      have h1 : ¬k1 = k := by
        intro hh
        exact hany.1 (by simp [hh])
      rw [List.cons_append]
      simp only [schemeGet]
      rw [if_neg h1]
      exact ih (by simpa using hany.2)

theorem schemeGet_dictInsert_ne (s : Scheme) (k kq : String) (v : Params)
    (h : kq ≠ k) :
    schemeGet (dictInsert s k v) kq = schemeGet s kq := by
  rw [dictInsert]
  by_cases hany : s.any (fun kv => kv.1 == k)
  · rw [if_pos hany]
    clear hany
    induction s with
    | nil => rfl
    | cons hd tl ih =>
      obtain ⟨k1, v1⟩ := hd
      rw [List.map_cons]
      by_cases h1 : k1 = k
      · simp only [if_pos (show (k1, v1).1 = k from h1)]
        simp only [schemeGet]
        rw [if_neg (Ne.symm h), if_neg (show ¬k1 = kq from by rw [h1]; exact Ne.symm h)]
        exact ih
      · simp only [if_neg (show ¬(k1, v1).1 = k from h1)]
        simp only [schemeGet]
        by_cases h2 : k1 = kq
        · rw [if_pos h2, if_pos h2]
        · rw [if_neg h2, if_neg h2]
          exact ih
  · rw [if_neg hany]
    clear hany
    induction s with
    | nil =>
      simp only [List.nil_append, schemeGet]
      rw [if_neg (Ne.symm h)]
    | cons hd tl ih =>
      obtain ⟨k1, v1⟩ := hd
      rw [List.cons_append]
      simp only [schemeGet]
      by_cases h2 : k1 = kq
      · rw [if_pos h2, if_pos h2]
      · rw [if_neg h2, if_neg h2]
        exact ih

/-- C8 counterexample: a scheme holding both the wildcard and an explicit
`Bacteria` rule with different parameters.  Expansion overwrites the
explicit rule with the wildcard\'s parameters, so not every non-wildcard
rule passes through unchanged. -/
theorem c8_counterexample :
    (schemeGet [("all", ⟨Rank.domain, 2⟩), ("Bacteria", ⟨Rank.genus, 7⟩)]
        "Bacteria" = some ⟨Rank.genus, 7⟩) ∧
    (schemeGet (expandScheme [("all", ⟨Rank.domain, 2⟩), ("Bacteria", ⟨Rank.genus, 7⟩)])
        "Bacteria" = some ⟨Rank.domain, 2⟩) ∧
    (⟨Rank.domain, 2⟩ : Params) ≠ ⟨Rank.genus, 7⟩ :=
  ⟨by rfl, by rfl, by decide⟩

/-- C8 amended: expanding a scheme containing the wildcard key "all" removes
that key and binds both Bacteria and Archaea to the wildcard\'s quota and
target rank; every rule under any other key passes through unchanged, but a
pre-existing Bacteria or Archaea rule is overwritten by the wildcard\'s
parameters. -/
theorem c8_amended_expansion (s : Scheme) (p : Params)
    (h : schemeGet s "all" = some p) :
    schemeGet (expandScheme s) "all" = none ∧
    schemeGet (expandScheme s) "Bacteria" = some p ∧
    schemeGet (expandScheme s) "Archaea" = some p ∧
    ∀ k, k ≠ "all" → k ≠ "Bacteria" → k ≠ "Archaea" →
      schemeGet (expandScheme s) k = schemeGet s k := by
  rw [expandScheme, h]
  refine ⟨?_, ?_, ?_, ?_⟩
  · rw [schemeGet_dictInsert_ne _ _ _ _ (by decide),
      schemeGet_dictInsert_ne _ _ _ _ (by decide)]
    exact schemeGet_removeAll_self s
  · rw [schemeGet_dictInsert_ne _ _ _ _ (by decide)]
    exact schemeGet_dictInsert_self _ _ _
  · exact schemeGet_dictInsert_self _ _ _
  · intro k hka hkb hkar
    rw [schemeGet_dictInsert_ne _ _ _ _ hkar, schemeGet_dictInsert_ne _ _ _ _ hkb]
    exact schemeGet_removeAll s k hka

/-- Witness for C8 amended at a concrete one-entry scheme. -/
theorem c8_amended_witness :
    schemeGet (expandScheme [("all", ⟨Rank.domain, 2⟩)]) "Bacteria" =
      some ⟨Rank.domain, 2⟩ ∧
    schemeGet (expandScheme [("all", ⟨Rank.domain, 2⟩)]) "Ecoli" =
      schemeGet [("all", ⟨Rank.domain, 2⟩)] "Ecoli" :=
  ⟨(c8_amended_expansion [("all", ⟨Rank.domain, 2⟩)] ⟨Rank.domain, 2⟩ (by rfl)).2.1,
   (c8_amended_expansion [("all", ⟨Rank.domain, 2⟩)] ⟨Rank.domain, 2⟩ (by rfl)).2.2.2
     "Ecoli" (by decide) (by decide) (by decide)⟩

/-- Every rule stored in a bucket resolves to the bucket's rank index. -/
def bucketsWF (df : List Record) (buckets : List (Nat × List RuleSpec)) : Prop :=
  ∀ kv ∈ buckets, ∀ r ∈ kv.2, get_taxa_level_index r.1 taxa_levels df = some kv.1

theorem bucketsWF_insert (df : List Record) (buckets : List (Nat × List RuleSpec))
    (k : Nat) (r : RuleSpec)
    (hwf : bucketsWF df buckets)
    (hr : get_taxa_level_index r.1 taxa_levels df = some k) :
    bucketsWF df (bucketInsert buckets k r) := by
  rw [bucketInsert]
  by_cases hany : buckets.any (fun kv => kv.1 == k)
  · rw [if_pos hany]
    intro kv hkv r' hr'
    obtain ⟨kv0, hkv0, heq⟩ := List.mem_map.mp hkv
    by_cases h1 : kv0.1 = k
    · rw [if_pos h1] at heq
      subst heq
      rcases List.mem_append.mp hr' with hmem | hmem
      · exact hwf kv0 hkv0 r' hmem
      · rw [List.mem_singleton] at hmem
        subst hmem
        rw [hr, h1]
    · rw [if_neg h1] at heq
      subst heq
      exact hwf kv0 hkv0 r' hr'
  · rw [if_neg hany]
    intro kv hkv r' hr'
    rcases List.mem_append.mp hkv with hmem | hmem
    · exact hwf kv hmem r' hr'
    · rw [List.mem_singleton] at hmem
      subst hmem
      rw [List.mem_singleton] at hr'
      subst hr'
      exact hr

theorem buildSamplingOrder_wf (df : List Record) :
    ∀ (scheme : Scheme) (acc buckets : List (Nat × List RuleSpec)),
      buildSamplingOrder df scheme acc = .ok buckets →
      bucketsWF df acc → bucketsWF df buckets := by
  intro scheme
  induction scheme with
  | nil =>
    intro acc buckets h hacc
    rw [buildSamplingOrder] at h
    cases h
    exact hacc
  | cons hd tl ih =>
    intro acc buckets h hacc
    obtain ⟨taxa, p⟩ := hd
    simp only [buildSamplingOrder] at h
    by_cases hc : check_taxa_name taxa taxa_levels df
    · rw [if_pos hc] at h
      cases hti : get_taxa_level_index taxa taxa_levels df with
      | none => simp [hti] at h
      | some ti =>
        simp only [hti] at h
        by_cases hge : rankIndex p.sampling_level ≥ ti
        · rw [if_pos hge] at h
          exact ih _ _ h
            (bucketsWF_insert df acc ti (taxa, p.sampling_level, p.taxa) hacc hti)
        · rw [if_neg hge] at h
          exact absurd h (by simp)
    · rw [if_neg hc] at h
      exact absurd h (by simp)

theorem mem_reorderBuckets (buckets : List (Nat × List RuleSpec))
    (kv : Nat × List RuleSpec) (h : kv ∈ reorderBuckets buckets) :
    ∃ kv0 ∈ buckets, kv0.1 = kv.1 ∧ kv0.2 = kv.2 := by
  rw [reorderBuckets] at h
  obtain ⟨k, hk, hsome⟩ := List.mem_filterMap.mp h
  cases hfind : buckets.find? (fun kv => kv.1 == k) with
  | none => rw [hfind] at hsome; simp at hsome
  | some kv0 =>
    rw [hfind] at hsome
    have hkv : (k, kv0.2) = kv := by simpa using hsome
    subst hkv
    refine ⟨kv0, List.mem_of_find?_eq_some hfind, ?_, rfl⟩
    simpa using List.find?_some hfind

theorem reorderBuckets_keys_sorted (buckets : List (Nat × List RuleSpec)) :
    List.Pairwise (fun a b => b.1 ≤ a.1) (reorderBuckets buckets) := by
  rw [reorderBuckets]
  refine List.Pairwise.filterMap _ ?_
    (sortDesc_pairwise (buckets.map (fun kv => kv.1)))
  intro a b hab x hx y hy
  cases hfa : buckets.find? (fun kv => kv.1 == a) with
  | none => rw [hfa] at hx; simp at hx
  | some kva =>
    rw [hfa] at hx
    cases hfb : buckets.find? (fun kv => kv.1 == b) with
    | none => rw [hfb] at hy; simp at hy
    | some kvb =>
      rw [hfb] at hy
      have hx2 : (a, kva.2) = x := by simpa using hx
      have hy2 : (b, kvb.2) = y := by simpa using hy
      subst hx2
      subst hy2
      exact hab

theorem pairwise_map_const_key (k : Nat) (xs : List RuleSpec) :
    List.Pairwise (fun a b : Nat × RuleSpec => b.1 ≤ a.1)
      (xs.map (fun r => (k, r))) := by
  induction xs with
  | nil => simp
  | cons x xs ih =>
    rw [List.map_cons, List.pairwise_cons]
    refine ⟨?_, ih⟩
    intro b hb
    obtain ⟨r, hr, heq⟩ := List.mem_map.mp hb
    subst heq
    exact le_refl k

theorem pairwise_flatMap_keys (l : List (Nat × List RuleSpec))
    (hl : List.Pairwise (fun a b => b.1 ≤ a.1) l) :
    List.Pairwise (fun a b : Nat × RuleSpec => b.1 ≤ a.1)
      (l.flatMap (fun kv => kv.2.map (fun r => (kv.1, r)))) := by
  induction l with
  | nil => simp
  | cons hd tl ih =>
    rw [List.pairwise_cons] at hl
    rw [List.flatMap_cons, List.pairwise_append]
    refine ⟨pairwise_map_const_key hd.1 hd.2, ih hl.2, ?_⟩
    intro a ha b hb
    obtain ⟨ra, hra, heqa⟩ := List.mem_map.mp ha
    obtain ⟨kv, hkv, hmem⟩ := List.mem_flatMap.mp hb
    obtain ⟨rb, hrb, heqb⟩ := List.mem_map.mp hmem
    subst heqa
    subst heqb
    exact hl.1 kv hkv

/-- C9: rules are executed in descending specificity order of their taxon's
rank: along the flattened execution sequence the bucket rank index never
increases (species-level buckets first, domain-level last), and each rule's
bucket index is exactly the rank index at which its taxon name resolves, so
no coarser-taxon rule is ever processed before a finer-taxon rule. -/
theorem c9_descending_order (df : List Record) (scheme : Scheme)
    (buckets : List (Nat × List RuleSpec))
    (h : buildSamplingOrder df scheme [] = .ok buckets) :
    List.Pairwise (fun a b : Nat × RuleSpec => b.1 ≤ a.1)
      (flattenedRules buckets) ∧
    ∀ kr ∈ flattenedRules buckets,
      get_taxa_level_index kr.2.1 taxa_levels df = some kr.1 := by
  constructor
  · rw [flattenedRules]
    exact pairwise_flatMap_keys _ (reorderBuckets_keys_sorted buckets)
  · intro kr hkr
    rw [flattenedRules] at hkr
    obtain ⟨kv, hkv, hmem⟩ := List.mem_flatMap.mp hkr
    obtain ⟨r, hr, heq⟩ := List.mem_map.mp hmem
    obtain ⟨kv0, hkv0, hfst, hsnd⟩ := mem_reorderBuckets buckets kv hkv
    subst heq
    have hwf : bucketsWF df buckets :=
      buildSamplingOrder_wf df scheme [] buckets h (by intro kv hkv; simp at hkv)
    have hget := hwf kv0 hkv0 r (by rw [hsnd]; exact hr)
    rw [hget, hfst]

/-- Witness for C9 at a concrete two-rule scheme: the species-level rule is
flattened before the genus-level rule. -/
theorem c9_witness :
    List.Pairwise (fun a b : Nat × RuleSpec => b.1 ≤ a.1)
      (flattenedRules [(6, [("s1", Rank.species, 1)]), (5, [("g1", Rank.genus, 1)])]) ∧
    get_taxa_level_index "s1" taxa_levels [exRec] = some 6 :=
  ⟨(c9_descending_order [exRec]
      [("s1", ⟨Rank.species, 1⟩), ("g1", ⟨Rank.genus, 1⟩)]
      [(6, [("s1", Rank.species, 1)]), (5, [("g1", Rank.genus, 1)])] (by rfl)).1,
   (c9_descending_order [exRec]
      [("s1", ⟨Rank.species, 1⟩), ("g1", ⟨Rank.genus, 1⟩)]
      [(6, [("s1", Rank.species, 1)]), (5, [("g1", Rank.genus, 1)])] (by rfl)).2
      (6, ("s1", Rank.species, 1)) (by decide)⟩

theorem nUnits_eq_zero_iff (b : Rank) (pool : List Record) :
    nUnits b pool = 0 ↔ pool = [] := by
  rw [nUnits]
  constructor
  · intro h
    cases pool with
    | nil => rfl
    | cons x xs =>
      exfalso
      have hmem : col b x ∈ ((x :: xs).map (col b)).dedup := by
        rw [List.mem_dedup]
        exact List.mem_map_of_mem _ (List.mem_cons_self x xs)
      rw [List.length_eq_zero] at h
      rw [h] at hmem
      simp at hmem
  · intro h
    subst h
    rfl

/-- C5 counterexample: a valid two-rule scheme on a one-record table.  The
species-level rule consumes the only record of genus g1; the later
genus-level rule then has an empty candidate pool, and its weight
assignment divides by zero (`prob_units = 1 / n_units` with `n_units = 0`,
line 135), aborting the run (`.ok none` = ZeroDivisionError) instead of
degrading to an empty selection. -/
theorem c5_counterexample :
    runScheme [exRec] (fun n l => l.take n) (fun n l => l.take n)
      [("s1", ⟨Rank.species, 1⟩), ("g1", ⟨Rank.genus, 1⟩)] = .ok none := by rfl

/-- C5 amended: a rule execution aborts the run precisely when its sampling
level is coarser than species and its candidate pool is empty (equivalently
has zero child units; the weight assignment then raises ZeroDivisionError).
In every other case — including an empty candidate pool at species level
and a zero quota — the rule degrades gracefully without failing. -/
theorem c5_amended_crash_iff (df : List Record)
    (sU sW : Nat → List Record → List Record) (s : RunState) (r : RuleExec) :
    processRule df sU sW s r = none ↔
      (r.sampling_level ≠ Rank.species ∧ candidatePool df s r = []) := by
  unfold processRule
  by_cases hsp : r.sampling_level = Rank.species
  · simp [hsp]
  · simp only [if_neg hsp]
    by_cases hz : nUnits (taxa_levels.getD (rankIndex r.sampling_level + 1) .species)
        (candidatePool df s r) = 0
    · simp [hsp, hz, (nUnits_eq_zero_iff _ _).mp hz, nUnits]
    · simp only [if_neg hz]
      simp only [hsp, ne_eq, not_false_iff, true_and]
      constructor
      · intro h
        exact absurd h (by simp)
      · intro hpool
        exact absurd ((nUnits_eq_zero_iff _ _).mpr hpool) hz

theorem mem_groupby_self (key : Record → String) (rows : List Record) (x : Record)
    (hx : x ∈ rows) :
    ∃ g ∈ groupby key rows, x ∈ g.2 := by
  refine ⟨(key x, rows.filter (fun r => key r == key x)), ?_, ?_⟩
  · rw [groupby]
    apply List.mem_map.mpr
    refine ⟨key x, ?_, rfl⟩
    have hmem : key x ∈ (rows.map key).dedup := by
      rw [List.mem_dedup]
      exact List.mem_map_of_mem _ hx
    exact ((sortKeys_perm _).mem_iff).mpr hmem
  · rw [List.mem_filter]
    exact ⟨hx, by simp⟩

theorem mem_of_mem_groupby (key : Record → String) (rows : List Record)
    (g : String × List Record) (x : Record)
    (hg : g ∈ groupby key rows) (hx : x ∈ g.2) :
    x ∈ rows ∧ key x = g.1 := by
  rw [groupby] at hg
  obtain ⟨k, hk, heq⟩ := List.mem_map.mp hg
  subst heq
  have := List.mem_filter.mp hx
  refine ⟨this.1, by simpa using this.2⟩

theorem accession_mem_assignWeights (b : Rank) (pool : List Record) (x : Record)
    (hx : x ∈ pool) :
    ∃ y ∈ assignWeights b pool, y.accession = x.accession := by
  obtain ⟨g, hg, hxg⟩ := mem_groupby_self (col b) pool x hx
  rw [assignWeights]
  exact ⟨_, List.mem_flatMap.mpr ⟨g, hg, List.mem_map.mpr ⟨x, hxg, rfl⟩⟩, rfl⟩

theorem usedAccessions_push (s : RunState) (P : List Record) (D : List (List Record)) :
    usedAccessions { used_data := s.used_data ++ [P], sampled_dfs := D } =
      usedAccessions s ++ P.map (fun x => x.accession) := by
  simp [usedAccessions, List.flatMap_append]

theorem usedAccessions_processRule (df : List Record)
    (sU sW : Nat → List Record → List Record) (s : RunState) (r : RuleExec)
    (s' : RunState) (h : processRule df sU sW s r = some s') :
    (∀ a ∈ usedAccessions s, a ∈ usedAccessions s') ∧
    (∀ x ∈ candidatePool df s r, x.accession ∈ usedAccessions s') := by
  unfold processRule at h
  by_cases hsp : r.sampling_level = Rank.species
  · rw [if_pos hsp] at h
    cases h
    constructor
    · intro a ha
      rw [usedAccessions_push]
      exact List.mem_append_left _ ha
    · intro x hx
      rw [usedAccessions_push]
      exact List.mem_append_right _ (List.mem_map_of_mem _ hx)
  · rw [if_neg hsp] at h
    by_cases hz : nUnits (taxa_levels.getD (rankIndex r.sampling_level + 1) .species)
        (candidatePool df s r) = 0
    · rw [if_pos hz] at h
      exact absurd h (by simp)
    · rw [if_neg hz] at h
      cases h
      constructor
      · intro a ha
        rw [usedAccessions_push]
        exact List.mem_append_left _ ha
      · intro x hx
        rw [usedAccessions_push]
        obtain ⟨y, hy, hacc⟩ := accession_mem_assignWeights
          (taxa_levels.getD (rankIndex r.sampling_level + 1) .species)
          (candidatePool df s r) x hx
        exact List.mem_append_right _ (List.mem_map.mpr ⟨y, hy, hacc⟩)

theorem runRules_append (df : List Record)
    (sU sW : Nat → List Record → List Record)
    (l₁ l₂ : List RuleExec) (s s₁ : RunState)
    (h : runRules df sU sW l₁ s = some s₁) :
    runRules df sU sW (l₁ ++ l₂) s = runRules df sU sW l₂ s₁ := by
  induction l₁ generalizing s with
  | nil =>
    rw [runRules] at h
    cases h
    rfl
  | cons r rest ih =>
    simp only [List.cons_append, runRules] at h ⊢
    cases hp : processRule df sU sW s r with
    | none => rw [hp] at h; exact absurd h (by simp)
    | some s' =>
      simp only [hp] at h ⊢
      exact ih _ h

theorem usedAccessions_monotone (df : List Record)
    (sU sW : Nat → List Record → List Record) :
    ∀ (l : List RuleExec) (s s' : RunState),
      runRules df sU sW l s = some s' →
      ∀ a ∈ usedAccessions s, a ∈ usedAccessions s' := by
  intro l
  induction l with
  | nil =>
    intro s s' h a ha
    rw [runRules] at h
    cases h
    exact ha
  | cons r rest ih =>
    intro s s' h a ha
    rw [runRules] at h
    cases hp : processRule df sU sW s r with
    | none => rw [hp] at h; exact absurd h (by simp)
    | some s1 =>
      simp only [hp] at h
      exact ih s1 s' h a ((usedAccessions_processRule df sU sW s r s1 hp).1 a ha)

theorem not_mem_pool_of_used (df : List Record) (s : RunState) (r : RuleExec)
    (a : String) (ha : a ∈ usedAccessions s) :
    a ∉ (candidatePool df s r).map (fun x => x.accession) := by
  intro hmem
  obtain ⟨x, hx, hax⟩ := List.mem_map.mp hmem
  rw [candidatePool] at hx
  have hflt := (List.mem_filter.mp hx).2
  rw [Bool.not_eq_true'] at hflt
  have hnm : x.accession ∉ usedAccessions s := by simpa using hflt
  exact hnm (hax ▸ ha)

/-- C2: once an accession appears in the candidate pool of some rule (the
records matching the rule's taxon after exclusion filtering, before quota
truncation), it never appears in the candidate pool of any rule processed
later in the run, even if it was not selected: the whole pool is appended
to `used_data` and every later pool filters used accessions out. -/
theorem c2_pools_disjoint (df : List Record)
    (sU sW : Nat → List Record → List Record)
    (pre mid : List RuleExec) (r₁ r₂ : RuleExec) (s₁ s₂ : RunState) (a : String)
    (h₁ : runRules df sU sW pre initState = some s₁)
    (h₂ : runRules df sU sW (pre ++ r₁ :: mid) initState = some s₂)
    (ha : a ∈ (candidatePool df s₁ r₁).map (fun x => x.accession)) :
    a ∉ (candidatePool df s₂ r₂).map (fun x => x.accession) := by
  rw [runRules_append df sU sW pre (r₁ :: mid) initState s₁ h₁] at h₂
  rw [runRules] at h₂
  cases hp : processRule df sU sW s₁ r₁ with
  | none => rw [hp] at h₂; exact absurd h₂ (by simp)
  | some s1' =>
    simp only [hp] at h₂
    obtain ⟨x, hx, hax⟩ := List.mem_map.mp ha
    have hused : a ∈ usedAccessions s1' := by
      rw [← hax]
      exact (usedAccessions_processRule df sU sW s₁ r₁ s1' hp).2 x hx
    exact not_mem_pool_of_used df s₂ r₂ a
      (usedAccessions_monotone df sU sW mid s1' s₂ h₂ a hused)

/-- Witness for C2 on a one-record table: the accession A1 enters the first
rule's candidate pool and is gone from the pool the second rule sees. -/
theorem c2_witness :
    "A1" ∈ (candidatePool [exRec] initState
      ⟨Rank.genus, "g1", Rank.species, 1⟩).map (fun x => x.accession) ∧
    "A1" ∉ (candidatePool [exRec] ⟨[[exRec]], [[exRec]]⟩
      ⟨Rank.genus, "g1", Rank.species, 1⟩).map (fun x => x.accession) :=
  ⟨by decide,
   c2_pools_disjoint [exRec] (fun n l => l.take n) (fun n l => l.take n)
     [] [] ⟨Rank.genus, "g1", Rank.species, 1⟩ ⟨Rank.genus, "g1", Rank.species, 1⟩
     initState ⟨[[exRec]], [[exRec]]⟩ "A1" (by rfl) (by rfl) (by decide)⟩

/-- A second record of genus g1, species s1. -/
def exRecB : Record :=
  { accession := "A4", domain := "Bacteria", phylum := "p1", cls := "c1",
    order := "o1", family := "f1", genus := "g1", species := "s1",
    checkm_completeness := 100, checkm_contamination := 0,
    gtdb_representative := true }

/-- A third record of genus g1, species s1. -/
def exRecC : Record :=
  { accession := "A5", domain := "Bacteria", phylum := "p1", cls := "c1",
    order := "o1", family := "f1", genus := "g1", species := "s1",
    checkm_completeness := 100, checkm_contamination := 0,
    gtdb_representative := true }

theorem take_oracle_spec (n : Nat) (l : List Record) (h : n ≤ l.length) :
    (l.take n).length = n ∧ (l.take n).Subperm l :=
  ⟨by simpa using h, (List.take_sublist n l).subperm⟩

/-- C3: per-group quota behaviour of one rule execution: each group of the
(sampling-level) grouping of the pool contributes one selection; the
selection is the whole group when the group has at most `n_taxa` records,
and otherwise exactly `n_taxa` records drawn without replacement (a
sub-permutation of the group; by the weighted oracle when the weight column
is present, uniformly otherwise); hence no group ever contributes more than
`n_taxa` records. -/
theorem c3_group_quota (sU sW : Nat → List Record → List Record)
    (hU : ∀ n l, n ≤ l.length → (sU n l).length = n ∧ (sU n l).Subperm l)
    (hW : ∀ n l, n ≤ l.length → (sW n l).length = n ∧ (sW n l).Subperm l)
    (sampling_level : Rank) (n_taxa : Nat) (pool : List Record)
    (g : String × List Record) (hg : g ∈ groupby (col sampling_level) pool) :
    selectGroup sU sW n_taxa g.2 ∈ selections sU sW sampling_level n_taxa pool ∧
    (g.2.length ≤ n_taxa → selectGroup sU sW n_taxa g.2 = g.2) ∧
    (n_taxa < g.2.length →
      (selectGroup sU sW n_taxa g.2).length = n_taxa ∧
      (selectGroup sU sW n_taxa g.2).Subperm g.2) ∧
    (selectGroup sU sW n_taxa g.2).length ≤ n_taxa := by
  refine ⟨?_, ?_, ?_, ?_⟩
  · rw [selections]
    exact List.mem_map.mpr ⟨g, hg, rfl⟩
  · intro hle
    rw [selectGroup, if_neg (by omega)]
  · intro hlt
    rw [selectGroup, if_pos (by omega)]
    by_cases hp : hasProbColumn g.2
    · rw [if_pos hp]
      exact hW n_taxa g.2 (by omega)
    · rw [if_neg hp]
      exact hU n_taxa g.2 (by omega)
  · by_cases hle : g.2.length ≤ n_taxa
    · rw [selectGroup, if_neg (by omega)]
      exact hle
    · rw [selectGroup, if_pos (by omega)]
      by_cases hp : hasProbColumn g.2
      · rw [if_pos hp]
        exact le_of_eq (hW n_taxa g.2 (by omega)).1
      · rw [if_neg hp]
        exact le_of_eq (hU n_taxa g.2 (by omega)).1

/-- Witness for C3: a species group of three records with quota 2 yields a
selection of exactly 2 records, a sub-permutation of the group. -/
theorem c3_witness :
    (selectGroup (fun n l => l.take n) (fun n l => l.take n) 2
        [exRec, exRecB, exRecC]).length = 2 ∧
    (selectGroup (fun n l => l.take n) (fun n l => l.take n) 2
        [exRec, exRecB, exRecC]).Subperm [exRec, exRecB, exRecC] :=
  (c3_group_quota (fun n l => l.take n) (fun n l => l.take n)
     (fun n l h => take_oracle_spec n l h) (fun n l h => take_oracle_spec n l h)
     Rank.species 2 [exRec, exRecB, exRecC] ("s1", [exRec, exRecB, exRecC])
     (by decide)).2.2.1 (by decide)

/-- Erase the transient weight, recovering the record as loaded. -/
def eraseProb (x : Record) : Record := { x with sampling_prob := none }

theorem mem_foldl_dedup (x : Record) :
    ∀ (l acc : List Record),
      x ∈ l.foldl (fun acc y => if y ∈ acc then acc else acc ++ [y]) acc →
      x ∈ acc ∨ x ∈ l := by
  intro l
  induction l with
  | nil =>
    intro acc h
    exact Or.inl h
  | cons y ys ih =>
    intro acc h
    rw [List.foldl_cons] at h
    by_cases hc : y ∈ acc
    · rw [if_pos hc] at h
      rcases ih _ h with h1 | h1
      · exact Or.inl h1
      · exact Or.inr (List.mem_cons_of_mem _ h1)
    · rw [if_neg hc] at h
      rcases ih _ h with h1 | h1
      · rcases List.mem_append.mp h1 with h2 | h2
        · exact Or.inl h2
        · rw [List.mem_singleton] at h2
          exact Or.inr (h2 ▸ List.mem_cons_self y ys)
      · exact Or.inr (List.mem_cons_of_mem _ h1)

theorem mem_dropDuplicates (l : List Record) (x : Record)
    (hx : x ∈ dropDuplicates l) : x ∈ l := by
  rcases mem_foldl_dedup x l [] hx with h | h
  · simp at h
  · exact h

/-- Every record of a frame agrees with an input record except possibly on
the weight, and weight-free records are input records. -/
def frameOK (df : List Record) (P : List Record) : Prop :=
  ∀ x ∈ P, (∃ y ∈ df, eraseProb x = eraseProb y) ∧ (x.sampling_prob = none → x ∈ df)

theorem candidatePool_subset (df : List Record) (s : RunState) (r : RuleExec) :
    ∀ x ∈ candidatePool df s r, x ∈ df := by
  intro x hx
  rw [candidatePool] at hx
  exact (List.mem_filter.mp (List.mem_filter.mp hx).1).1

theorem frameOK_of_subset (df : List Record) (P : List Record)
    (h : ∀ x ∈ P, x ∈ df) : frameOK df P := by
  intro x hx
  exact ⟨⟨x, h x hx, rfl⟩, fun _ => h x hx⟩

theorem frameOK_assignWeights (df : List Record) (b : Rank) (pool : List Record)
    (hpool : ∀ x ∈ pool, x ∈ df) :
    frameOK df (assignWeights b pool) := by
  intro x hx
  rw [assignWeights] at hx
  obtain ⟨g, hg, hmem⟩ := List.mem_flatMap.mp hx
  obtain ⟨y, hy, heq⟩ := List.mem_map.mp hmem
  have hydf : y ∈ df := hpool y (mem_of_mem_groupby _ pool g y hg hy).1
  subst heq
  refine ⟨⟨y, hydf, rfl⟩, ?_⟩
  intro hnone
  exact absurd hnone (by simp)

theorem selections_subset (sU sW : Nat → List Record → List Record)
    (hUsub : ∀ n l x, x ∈ sU n l → x ∈ l)
    (hWsub : ∀ n l x, x ∈ sW n l → x ∈ l)
    (lvl : Rank) (n_taxa : Nat) (P S : List Record)
    (hS : S ∈ selections sU sW lvl n_taxa P) : ∀ x ∈ S, x ∈ P := by
  rw [selections] at hS
  obtain ⟨g, hg, heq⟩ := List.mem_map.mp hS
  subst heq
  intro x hx
  rw [selectGroup] at hx
  by_cases hlen : g.2.length > n_taxa
  · rw [if_pos hlen] at hx
    by_cases hp : hasProbColumn g.2
    · rw [if_pos hp] at hx
      exact (mem_of_mem_groupby _ P g x hg (hWsub _ _ x hx)).1
    · rw [if_neg hp] at hx
      exact (mem_of_mem_groupby _ P g x hg (hUsub _ _ x hx)).1
  · rw [if_neg hlen] at hx
    exact (mem_of_mem_groupby _ P g x hg hx).1

/-- All frames accumulated in `sampled_dfs` satisfy the frame condition. -/
def stateOK (df : List Record) (s : RunState) : Prop :=
  ∀ P ∈ s.sampled_dfs, frameOK df P

theorem stateOK_processRule (df : List Record)
    (sU sW : Nat → List Record → List Record)
    (hUsub : ∀ n l x, x ∈ sU n l → x ∈ l)
    (hWsub : ∀ n l x, x ∈ sW n l → x ∈ l)
    (s : RunState) (r : RuleExec) (s' : RunState)
    (h : processRule df sU sW s r = some s') (hs : stateOK df s) :
    stateOK df s' := by
  unfold processRule at h
  by_cases hsp : r.sampling_level = Rank.species
  · rw [if_pos hsp] at h
    cases h
    intro P hP
    rcases List.mem_append.mp hP with h1 | h1
    · exact hs P h1
    · have hsub := selections_subset sU sW hUsub hWsub r.sampling_level r.n_taxa
        (candidatePool df s r) P h1
      exact frameOK_of_subset df P
        (fun x hx => candidatePool_subset df s r x (hsub x hx))
  · rw [if_neg hsp] at h
    by_cases hz : nUnits (taxa_levels.getD (rankIndex r.sampling_level + 1) .species)
        (candidatePool df s r) = 0
    · rw [if_pos hz] at h
      exact absurd h (by simp)
    · rw [if_neg hz] at h
      cases h
      intro P hP
      rcases List.mem_append.mp hP with h1 | h1
      · exact hs P h1
      · have hsub := selections_subset sU sW hUsub hWsub r.sampling_level r.n_taxa
          (assignWeights (taxa_levels.getD (rankIndex r.sampling_level + 1) .species)
            (candidatePool df s r)) P h1
        intro x hx
        exact frameOK_assignWeights df
          (taxa_levels.getD (rankIndex r.sampling_level + 1) .species)
          (candidatePool df s r) (candidatePool_subset df s r) x (hsub x hx)

theorem stateOK_runRules (df : List Record)
    (sU sW : Nat → List Record → List Record)
    (hUsub : ∀ n l x, x ∈ sU n l → x ∈ l)
    (hWsub : ∀ n l x, x ∈ sW n l → x ∈ l) :
    ∀ (l : List RuleExec) (s s' : RunState),
      runRules df sU sW l s = some s' → stateOK df s → stateOK df s' := by
  intro l
  induction l with
  | nil =>
    intro s s' h hs
    rw [runRules] at h
    cases h
    exact hs
  | cons r rest ih =>
    intro s s' h hs
    rw [runRules] at h
    cases hp : processRule df sU sW s r with
    | none => rw [hp] at h; exact absurd h (by simp)
    | some s1 =>
      simp only [hp] at h
      exact ih s1 s' h (stateOK_processRule df sU sW hUsub hWsub s r s1 hp hs)

/-- C7 counterexample: a run whose only rule samples at genus level keeps
the weight assigned during the rule: the input record carries no
sampling_prob, yet the output record carries weight 1, so the weight column
is not discarded and the output column set is not that of the input. -/
theorem c7_counterexample :
    exRec.sampling_prob = none ∧
    ∃ q : ℚ, runScheme [exRec] (fun n l => l.take n) (fun n l => l.take n)
        [("g1", ⟨Rank.genus, 5⟩)] =
      .ok (some [{ exRec with sampling_prob := some q }]) ∧
    ({ exRec with sampling_prob := some q } : Record).sampling_prob ≠ none :=
  ⟨rfl, _, rfl, by simp⟩

/-- C7 amended: records are never mutated after loading except for the
sampling_prob weight, but the weight column is not discarded after a rule's
execution: every record of the final output agrees with some input record
on every column except possibly sampling_prob, and an output record without
a weight is literally an input record; weighted rules can propagate their
weights into the output (see the counterexample), so the output column set
can strictly extend the post-filter input's. -/
theorem c7_amended_frame (df : List Record)
    (sU sW : Nat → List Record → List Record)
    (hUsub : ∀ n l x, x ∈ sU n l → x ∈ l)
    (hWsub : ∀ n l x, x ∈ sW n l → x ∈ l)
    (rules : List RuleExec) (s' : RunState)
    (h : runRules df sU sW rules initState = some s')
    (x : Record) (hx : x ∈ finalOutput s') :
    (∃ y ∈ df, eraseProb x = eraseProb y) ∧ (x.sampling_prob = none → x ∈ df) := by
  have hsOK : stateOK df s' :=
    stateOK_runRules df sU sW hUsub hWsub rules initState s' h
      (by intro P hP; simp [initState] at hP)
  rw [finalOutput] at hx
  obtain ⟨P, hP, hxP⟩ := List.mem_flatMap.mp (mem_dropDuplicates _ x hx)
  exact hsOK P hP x hxP

/-- Witness for C7 amended on a concrete one-rule run. -/
theorem c7_amended_witness :
    (∃ y ∈ [exRec], eraseProb exRec = eraseProb y) ∧
    (exRec.sampling_prob = none → exRec ∈ [exRec]) :=
  c7_amended_frame [exRec] (fun n l => l.take n) (fun n l => l.take n)
    (fun _ _ x hx => List.mem_of_mem_take hx)
    (fun _ _ x hx => List.mem_of_mem_take hx)
    [⟨Rank.genus, "g1", Rank.species, 1⟩] ⟨[[exRec]], [[exRec]]⟩ (by rfl)
    exRec (by decide)

/-- The weight of a record, 0 when the column is absent. -/
def probVal (x : Record) : ℚ := x.sampling_prob.getD 0

theorem col_setProb (b : Rank) (x : Record) (p : Option ℚ) :
    col b { x with sampling_prob := p } = col b x := by
  cases b <;> rfl

theorem nUnits_pos (b : Rank) (pool : List Record) (hne : pool ≠ []) :
    0 < nUnits b pool := by
  rw [nUnits]
  cases pool with
  | nil => exact absurd rfl hne
  | cons x xs =>
    have hmem : col b x ∈ ((x :: xs).map (col b)).dedup := by
      rw [List.mem_dedup]
      exact List.mem_map_of_mem _ (List.mem_cons_self x xs)
    exact List.length_pos.mpr (List.ne_nil_of_mem hmem)

theorem assignWeights_eq_flatMap (b : Rank) (pool : List Record) :
    assignWeights b pool =
      (sortKeys ((pool.map (col b)).dedup)).flatMap (fun k =>
        (pool.filter (fun r => col b r == k)).map (fun x =>
          { x with
            sampling_prob := some (1 / (nUnits b pool : ℚ) /
              ((pool.filter (fun r => col b r == k)).length : ℚ)) })) := by
  rw [assignWeights, groupby, List.flatMap_map]

theorem chunk_mem_key (b : Rank) (pool : List Record) (k : String) (q : ℚ) (y : Record)
    (hy : y ∈ (pool.filter (fun r => col b r == k)).map (fun x =>
      ({ x with sampling_prob := some q } : Record))) :
    col b y = k := by
  obtain ⟨x, hx, heq⟩ := List.mem_map.mp hy
  subst heq
  rw [col_setProb]
  simpa using (List.mem_filter.mp hx).2

theorem filter_flatMap {α β : Type} (l : List α) (f : α → List β) (p : β → Bool) :
    (l.flatMap f).filter p = l.flatMap (fun a => (f a).filter p) := by
  induction l with
  | nil => rfl
  | cons a t ih => rw [List.flatMap_cons, List.flatMap_cons, List.filter_append, ih]

theorem flatMap_eq_single {β : Type} (k : String) :
    ∀ K : List String, K.Nodup → k ∈ K →
      ∀ f : String → List β, (∀ kp ∈ K, kp ≠ k → f kp = []) →
      K.flatMap f = f k := by
  intro K
  induction K with
  | nil => intro _ hk; cases hk
  | cons a t ih =>
    intro hnd hk f hf
    rw [List.flatMap_cons]
    rcases List.mem_cons.mp hk with rfl | hkt
    · have ht : t.flatMap f = [] := List.flatMap_eq_nil_iff.mpr
        (fun kp hkp => hf kp (List.mem_cons_of_mem _ hkp)
          (fun he => (List.nodup_cons.mp hnd).1 (he ▸ hkp)))
      rw [ht, List.append_nil]
    · have hak : a ≠ k := by
        intro he
        exact (List.nodup_cons.mp hnd).1 (by rw [he]; exact hkt)
      rw [hf a (List.mem_cons_self _ _) hak, List.nil_append]
      exact ih (List.nodup_cons.mp hnd).2 hkt f
        (fun kp hkp hne => hf kp (List.mem_cons_of_mem _ hkp) hne)

theorem assignWeights_filter_key (b : Rank) (pool : List Record) (k : String)
    (hk : k ∈ (pool.map (col b)).dedup) :
    (assignWeights b pool).filter (fun y => col b y == k) =
      (pool.filter (fun r => col b r == k)).map (fun x =>
        { x with
          sampling_prob := some (1 / (nUnits b pool : ℚ) /
            ((pool.filter (fun r => col b r == k)).length : ℚ)) }) := by
  rw [assignWeights_eq_flatMap, filter_flatMap]
  have hnd : (sortKeys ((pool.map (col b)).dedup)).Nodup :=
    (sortKeys_perm _).nodup_iff.mpr (List.nodup_dedup _)
  have hkK : k ∈ sortKeys ((pool.map (col b)).dedup) :=
    (sortKeys_perm _).mem_iff.mpr hk
  have hside : ∀ kp ∈ sortKeys ((pool.map (col b)).dedup), kp ≠ k →
      ((pool.filter (fun r => col b r == kp)).map (fun x =>
        ({ x with
          sampling_prob := some (1 / (nUnits b pool : ℚ) /
            ((pool.filter (fun r => col b r == kp)).length : ℚ)) } : Record))).filter
        (fun y => col b y == k) = [] := by
    intro kp hkp hne
    rw [List.filter_eq_nil_iff]
    intro y hy
    have hcol := chunk_mem_key b pool kp _ y hy
    simp [hcol, hne]
  rw [flatMap_eq_single k _ hnd hkK _ hside]
  rw [List.filter_eq_self.mpr]
  intro y hy
  have hcol := chunk_mem_key b pool k _ y hy
  simp [hcol]

theorem sum_map_setProb (P : List Record) (q : ℚ) :
    ((P.map (fun x => ({ x with sampling_prob := some q } : Record))).map probVal).sum
      = (P.length : ℚ) * q := by
  rw [List.map_map]
  have hconst : (probVal ∘ fun (x : Record) =>
      ({ x with sampling_prob := some q } : Record)) = fun _ => q := by
    funext x
    rfl
  rw [hconst, List.map_const', List.sum_replicate, nsmul_eq_mul]

theorem filter_key_ne_nil (b : Rank) (pool : List Record) (k : String)
    (hk : k ∈ (pool.map (col b)).dedup) :
    pool.filter (fun r => col b r == k) ≠ [] := by
  rw [List.mem_dedup] at hk
  obtain ⟨x, hx, hcol⟩ := List.mem_map.mp hk
  intro hnil
  have hmem : x ∈ pool.filter (fun r => col b r == k) :=
    List.mem_filter.mpr ⟨hx, by simp [hcol]⟩
  rw [hnil] at hmem
  exact absurd hmem (List.not_mem_nil x)

theorem chunk_sum (b : Rank) (pool : List Record) (k : String)
    (hk : k ∈ (pool.map (col b)).dedup) :
    (((pool.filter (fun r => col b r == k)).map (fun x =>
        ({ x with
          sampling_prob := some (1 / (nUnits b pool : ℚ) /
            ((pool.filter (fun r => col b r == k)).length : ℚ)) } : Record))).map
      probVal).sum = 1 / (nUnits b pool : ℚ) := by
  rw [sum_map_setProb]
  have hnil := filter_key_ne_nil b pool k hk
  have hlen : ((pool.filter (fun r => col b r == k)).length : ℚ) ≠ 0 := by
    have hne0 : (pool.filter (fun r => col b r == k)).length ≠ 0 :=
      fun h => hnil (List.length_eq_zero.mp h)
    exact_mod_cast hne0
  rw [mul_comm]
  exact div_mul_cancel₀ _ hlen

/-- C4: in the weight-assignment step of a weighted rule over a non-empty
candidate pool with `n_units` distinct child-rank values, every record of a
child group of `k` records receives weight `(1 / n_units) / k`; hence the
weights of each child group sum to `1 / n_units` exactly, and the weights
of the whole reweighted pool sum to 1 exactly (in rational arithmetic). -/
theorem c4_weight_sums (base_level : Rank) (pool : List Record) (hne : pool ≠ []) :
    0 < nUnits base_level pool ∧
    (∀ x ∈ assignWeights base_level pool,
      x.sampling_prob = some (1 / (nUnits base_level pool : ℚ) /
        ((pool.filter (fun y => col base_level y == col base_level x)).length : ℚ))) ∧
    (∀ k ∈ (pool.map (col base_level)).dedup,
      (((assignWeights base_level pool).filter
          (fun y => col base_level y == k)).map probVal).sum =
        1 / (nUnits base_level pool : ℚ)) ∧
    ((assignWeights base_level pool).map probVal).sum = 1 := by
  refine ⟨nUnits_pos base_level pool hne, ?_, ?_, ?_⟩
  · intro x hx
    rw [assignWeights_eq_flatMap] at hx
    obtain ⟨k, hkK, hxc⟩ := List.mem_flatMap.mp hx
    have hcol : col base_level x = k := chunk_mem_key base_level pool k _ x hxc
    obtain ⟨y, hy, heq⟩ := List.mem_map.mp hxc
    subst heq
    simp only [hcol]
  · intro k hk
    rw [assignWeights_filter_key base_level pool k hk]
    exact chunk_sum base_level pool k hk
  · rw [assignWeights_eq_flatMap, List.map_flatMap, List.flatMap_def,
      List.sum_flatten, List.map_map]
    have hcongr := List.map_congr_left (l := sortKeys ((pool.map (col base_level)).dedup))
      (f := List.sum ∘ fun k =>
        ((pool.filter (fun r => col base_level r == k)).map (fun x =>
          ({ x with
            sampling_prob := some (1 / (nUnits base_level pool : ℚ) /
              ((pool.filter (fun r => col base_level r == k)).length : ℚ)) } : Record))).map
          probVal)
      (g := fun _ => 1 / (nUnits base_level pool : ℚ))
      (fun k hkK => chunk_sum base_level pool k ((sortKeys_perm _).mem_iff.mp hkK))
    have h0 : ((nUnits base_level pool : ℚ)) ≠ 0 := by
      have hpos := nUnits_pos base_level pool hne
      have hne0 : nUnits base_level pool ≠ 0 := Nat.pos_iff_ne_zero.mp hpos
      exact_mod_cast hne0
    rw [hcongr, List.map_const', List.sum_replicate, nsmul_eq_mul,
      (sortKeys_perm ((pool.map (col base_level)).dedup)).length_eq,
      show ((pool.map (col base_level)).dedup).length = nUnits base_level pool from rfl,
      mul_one_div, div_self h0]

/-- Witness for C4 on a concrete two-species pool under genus-level
sampling: the two child groups get weights summing to 1/2 each and the
whole pool sums to 1. -/
theorem c4_witness :
    0 < nUnits Rank.species [exRec, exRecGX] ∧
    (∀ x ∈ assignWeights Rank.species [exRec, exRecGX],
      x.sampling_prob = some (1 / (nUnits Rank.species [exRec, exRecGX] : ℚ) /
        (([exRec, exRecGX].filter
          (fun y => col Rank.species y == col Rank.species x)).length : ℚ))) ∧
    (∀ k ∈ ([exRec, exRecGX].map (col Rank.species)).dedup,
      (((assignWeights Rank.species [exRec, exRecGX]).filter
          (fun y => col Rank.species y == k)).map probVal).sum =
        1 / (nUnits Rank.species [exRec, exRecGX] : ℚ)) ∧
    ((assignWeights Rank.species [exRec, exRecGX]).map probVal).sum = 1 :=
  c4_weight_sums Rank.species [exRec, exRecGX] (by decide)

end TADA
